import Mathlib

/-!
Verification of the bang-resolution core of the redirector repository
(src/lib.rs): the bang extractor get_bang, the resolver resolve, the
trigger cache update_cache, and the refresh entry point update_bangs.
Rust strings are modelled as their UTF-8 byte lists; the process-global
BANG_CACHE is passed to resolve as an explicit argument; the filesystem,
network and clock effects of update_bangs are passed as an explicit
environment record.
-/

namespace Redirector

/-- Byte strings: a Rust str or String is modelled as its list of UTF-8 bytes. -/
abbrev Str := List Nat

/-- Byte at index i of a byte string, 0 past the end (the Rust code only
reads bytes[i] in bounds). -/
def byteAt (q : Str) (i : Nat) : Nat := q.getD i 0

/-- UTF-8 encoding of one character, used to spell out concrete byte strings. -/
def charBytes (c : Char) : Str :=
  let n := c.toNat
  if n < 128 then [n]
  else if n < 2048 then [192 + n / 64, 128 + n % 64]
  else if n < 65536 then [224 + n / 4096, 128 + n / 64 % 64, 128 + n % 64]
  else [240 + n / 262144, 128 + n / 4096 % 64, 128 + n / 64 % 64, 128 + n % 64]

/-- UTF-8 byte list of a string literal, for concrete test inputs. -/
def strBytes (s : String) : Str := s.data.flatMap charBytes

/-- Scan loop of get_bang (src/lib.rs lines 44-64): starting at index i of the
query (suf is the suffix of the query from i, prev the byte at i-1, always
with i at least 1), find the first bang token whose leading 33 (the byte
of the bang mark) directly follows a space byte 32 and is directly followed
by a non-space byte; return its start index and its end index (the first
space at or after it, or the length of the query). -/
def scanLoop (prev i : Nat) : Str → Option (Nat × Nat)
  | [] => none
  | b :: rest =>
    if b = 33 ∧ prev = 32 then
      match rest with
      | [] => none
      | c :: _ =>
        if c = 32 then scanLoop b (i + 1) rest
        else some (i, i + 1 + (rest.takeWhile (fun x => x != 32)).length)
    else scanLoop b (i + 1) rest

/-- get_bang from src/lib.rs lines 23-67, returning the slice bounds of the
returned token: queries shorter than 2 bytes give none; a query whose first
byte is 33 and whose second byte is not a space gives the run up to the
first space; otherwise the scan loop runs from index 1. -/
def get_bang_pos (q : Str) : Option (Nat × Nat) :=
  if q.length < 2 then none
  else
    match q with
    | [] => none
    | b0 :: rest =>
      if b0 = 33 then
        if 0 < (rest.takeWhile (fun x => x != 32)).length then
          some (0, 1 + (rest.takeWhile (fun x => x != 32)).length)
        else scanLoop b0 1 rest
      else scanLoop b0 1 rest

/-- The byte slice q[s..e] of a byte string. -/
def slice (q : Str) (s e : Nat) : Str := (q.take e).drop s

/-- get_bang returning the token itself, as the Rust function returns the
string slice query[start..end]. -/
def get_bang (q : Str) : Option Str :=
  (get_bang_pos q).map (fun p => slice q p.1 p.2)

/-- The bytes kept verbatim by urlencoding, crate version 2: ASCII digits,
letters, and the four marks 45 46 95 126. -/
def isUnreservedB (b : Nat) : Bool :=
  (decide (48 ≤ b) && decide (b ≤ 57)) || (decide (65 ≤ b) && decide (b ≤ 90)) ||
  (decide (97 ≤ b) && decide (b ≤ 122)) || b == 45 || b == 46 || b == 95 || b == 126

/-- Upper-case hexadecimal digit byte for a value below 16, as urlencoding
writes escapes. -/
def hexDigit (n : Nat) : Nat := if n < 10 then 48 + n else 55 + n

/-- Percent-encoding of one byte by urlencoding: unreserved bytes kept,
every other byte written as 37 (the percent byte) and two hex digits. -/
def encodeByte (b : Nat) : Str :=
  if isUnreservedB b then [b] else [37, hexDigit (b / 16), hexDigit (b % 16)]

/-- urlencoding.encode over a byte string. -/
def encode (s : Str) : Str := s.flatMap encodeByte

/-- Percent-encoding with the slash byte 47 kept literal: the net effect of
encoding and then unescaping every escaped slash. -/
def encSlash (s : Str) : Str := s.flatMap (fun b => if b == 47 then [47] else encodeByte b)

/-- Byte-list version of starts-with. -/
def isPre : Str → Str → Bool
  | [], _ => true
  | _ :: _, [] => false
  | a :: as, b :: bs => a == b && isPre as bs

/-- Byte-list version of str.contains for a literal pattern. -/
def containsSub (pat : Str) : Str → Bool
  | [] => pat.isEmpty
  | b :: rest => isPre pat (b :: rest) || containsSub pat rest

/-- Fuel-indexed helper for replaceAll; the fuel bounds the number of scan
steps and is set to the length of the scanned string. -/
def replaceAllAux (pat rep : Str) : Nat → Str → Str
  | _, [] => []
  | 0, s => s
  | fuel + 1, b :: rest =>
    if 0 < pat.length ∧ isPre pat (b :: rest) then
      rep ++ replaceAllAux pat rep fuel ((b :: rest).drop pat.length)
    else b :: replaceAllAux pat rep fuel rest

/-- Rust String.replace: replace every leftmost non-overlapping occurrence
of pat by rep. -/
def replaceAll (pat rep s : Str) : Str := replaceAllAux pat rep s.length s

/-- Rust String.replacen with count 1: replace the first occurrence of pat
by rep. -/
def replaceFirst (pat rep : Str) : Str → Str
  | [] => []
  | b :: rest =>
    if 0 < pat.length ∧ isPre pat (b :: rest) then rep ++ (b :: rest).drop pat.length
    else b :: replaceFirst pat rep rest

/-- ASCII whitespace bytes trimmed by str.trim (the queries the claims range
over carry only single-byte whitespace). -/
def isWsB (b : Nat) : Bool := b == 32 || b == 9 || b == 10 || b == 11 || b == 12 || b == 13

/-- str.trim: strip leading and trailing whitespace bytes. -/
def trim (s : Str) : Str := ((s.dropWhile isWsB).reverse.dropWhile isWsB).reverse

/-- u8.to_ascii_lowercase on one byte. -/
def toAsciiLowerByte (b : Nat) : Nat := if 65 ≤ b ∧ b ≤ 90 then b + 32 else b

/-- str.to_ascii_lowercase over a byte string. -/
def toAsciiLower (s : Str) : Str := s.map toAsciiLowerByte

/-- A bang definition (src/bang.rs): only the trigger and the url template
are read by the resolution logic. -/
structure Bang where
  trigger : Str
  url_template : Str

/-- The application configuration fields read by the core (src/config.rs):
the default search template and the optional local bang overrides. -/
structure AppConfig where
  default_search : Str
  bangs : Option (List Bang)

/-- The BANG_CACHE mapping, modelled extensionally. -/
abbrev Cache := Str → Option Str

/-- The cleared cache. -/
def emptyCache : Cache := fun _ => none

/-- HashMap.insert: the new binding shadows any previous binding of the key. -/
def cacheInsert (m : Cache) (k v : Str) : Cache :=
  fun x => if x = k then some v else m x

/-- update_cache from src/lib.rs lines 177-191: clear the mapping, insert the
fetched entries in order under their verbatim triggers, then insert the
configured overrides in order the same way. -/
def update_cache (bang_entries : List Bang) (app_config : AppConfig) : Cache :=
  let cache := bang_entries.foldl (fun m b => cacheInsert m b.trigger b.url_template) emptyCache
  match app_config.bangs with
  | some bangs => bangs.foldl (fun m b => cacheInsert m b.trigger b.url_template) cache
  | none => cache

/-- The two-byte default-search placeholder, an opening and a closing brace. -/
def placeholderBrace : Str := [123, 125]

/-- The seven-byte bang-template placeholder: three opening braces, the byte
of the letter s, three closing braces. -/
def placeholderS : Str := [123, 123, 123, 115, 125, 125, 125]

/-- The three bytes of the escaped slash: percent, digit two, letter F. -/
def p2F : Str := [37, 50, 70]

/-- resolve from src/lib.rs lines 72-132, with the global BANG_CACHE passed
explicitly. -/
def resolve (app_config : AppConfig) (cache : Cache) (query : Str) : Str :=
  if query = [] then replaceAll placeholderBrace [] app_config.default_search
  else if byteAt query 0 != 33 && query.all (fun b => b != 32) then
    replaceAll placeholderBrace (encode query) app_config.default_search
  else
    match get_bang query with
    | some bang =>
      match cache (toAsciiLower (bang.drop 1)) with
      | some url_template =>
        let search_term := trim (replaceFirst bang [] query)
        let encoded0 := encode search_term
        let encoded_term :=
          if containsSub p2F encoded0 then replaceAll p2F [47] encoded0 else encoded0
        if containsSub placeholderS url_template then
          let result := replaceAll placeholderS encoded_term url_template
          if containsSub p2F encoded_term then replaceAll p2F [47] result else result
        else url_template ++ encoded_term
      | none => replaceAll placeholderBrace (encode query) app_config.default_search
    | none => replaceAll placeholderBrace (encode query) app_config.default_search

/-- First space byte at or after index i, or the length of the query: the
end bound of the maximal non-space run at i. -/
def findEndFrom (q : Str) (i : Nat) : Nat :=
  i + ((q.drop i).takeWhile (fun x => x != 32)).length

/-- The property of the claims on get_bang at one index: the byte at i is
the bang mark 33, it is at the start or directly after a space byte, and it
is directly followed by at least one non-space byte. -/
def qualifies (q : Str) (i : Nat) : Bool :=
  decide (i + 1 < q.length) && (byteAt q i == 33) &&
  ((i == 0) || (byteAt q (i - 1) == 32)) && (byteAt q (i + 1) != 32)

/-- First index at or after i (with suf the suffix of q from i) satisfying
qualifies, scanning left to right. -/
def findIdxAux (q : Str) : Nat → Str → Option Nat
  | _, [] => none
  | i, _ :: rest => if qualifies q i then some i else findIdxAux q (i + 1) rest

/-- The characterization claimed of get_bang, written from the claim: the
maximal non-space run at the first qualifying index, none when no index
qualifies. -/
def specGetBang (q : Str) : Option Str :=
  (findIdxAux q 0 q).map (fun s => slice q s (findEndFrom q s))

/-- The redirect URL produced on a cache hit, written from the claims: the
search term is the query with the first occurrence of the bang token
removed and then trimmed; the encoded term keeps slashes literal; templates
holding the placeholder have every occurrence of it replaced, templates
without it get the encoded term appended. -/
def hitResult (url_template bang query : Str) : Str :=
  let search_term := trim (replaceFirst bang [] query)
  let encoded_term := encSlash search_term
  if containsSub placeholderS url_template then
    replaceAll placeholderS encoded_term url_template
  else url_template ++ encoded_term

/-- The effect environment of one update_bangs call (src/lib.rs lines
148-171): outcome of the snapshot metadata call, of the modified-time call,
of the elapsed-age computation (an error propagates), the optional snapshot
contents, the JSON parse of a byte string, the network fetch outcome, and
the snapshot write outcome. -/
structure Env where
  metadataOk : Bool
  modifiedOk : Bool
  elapsedFresh : Except Unit Bool
  readRes : Option Str
  parse : Str → Except Unit (List Bang)
  fetch : Except Unit Str
  writeRes : Except Unit Unit

/-- The mutable state touched by update_cache: the BANG_CACHE mapping and
the LAST_UPDATE instant. -/
structure St where
  cache : Cache
  lastUpdate : Nat

/-- The network branch of update_bangs (src/lib.rs lines 165-170): fetch,
parse, persist the snapshot (an error propagates), then refresh the cache. -/
def fetchPath (app_config : AppConfig) (env : Env) (now : Nat) (st : St) :
    Except Unit Unit × St :=
  match env.fetch with
  | Except.error e => (Except.error e, st)
  | Except.ok response =>
    match env.parse response with
    | Except.error e => (Except.error e, st)
    | Except.ok bang_entries =>
      match env.writeRes with
      | Except.error e => (Except.error e, st)
      | Except.ok _ => (Except.ok (), ⟨update_cache bang_entries app_config, now⟩)

/-- update_bangs from src/lib.rs lines 148-171: use the snapshot when its
metadata, modified time, age check and read succeed and it parses; fall to
the network branch otherwise, except that an elapsed error or a snapshot
parse error propagates. -/
def update_bangs (app_config : AppConfig) (env : Env) (now : Nat) (st : St) :
    Except Unit Unit × St :=
  if env.metadataOk then
    if env.modifiedOk then
      match env.elapsedFresh with
      | Except.error e => (Except.error e, st)
      | Except.ok fresh =>
        if fresh then
          match env.readRes with
          | some contents =>
            match env.parse contents with
            | Except.error e => (Except.error e, st)
            | Except.ok bang_entries => (Except.ok (), ⟨update_cache bang_entries app_config, now⟩)
          | none => fetchPath app_config env now st
        else fetchPath app_config env now st
    else fetchPath app_config env now st
  else fetchPath app_config env now st

/-- A continuation byte of a multi-byte UTF-8 sequence. -/
def ContByte (b : Nat) : Prop := 128 ≤ b ∧ b < 192

/-- One encoded code point: a non-continuation lead byte followed by
continuation bytes only, a single byte when the lead is ASCII. -/
def ValidGroup (g : Str) : Prop :=
  ∃ h t, g = h :: t ∧ ¬ContByte h ∧ (∀ b ∈ t, ContByte b) ∧ (h < 128 → t = [])

/-- Well-formed UTF-8 byte strings, abstracted as a concatenation of valid
code-point groups. -/
def Utf8 (s : Str) : Prop := ∃ gs : List Str, s = gs.flatten ∧ ∀ g ∈ gs, ValidGroup g

/-- The default search template of the default configuration. -/
def dsDefault : Str := strBytes "https://www.qwant.com/?q=" ++ placeholderBrace

/-- A concrete configuration without overrides, for concrete instances. -/
def cfgPlain : AppConfig := ⟨dsDefault, none⟩

/-- The google bang template of the tests, holding the placeholder. -/
def gTpl : Str := strBytes "https://www.google.com/search?q=" ++ placeholderS

/-- The github bang template of the tests, without a placeholder. -/
def ghTpl : Str := strBytes "https://github.com/search?utf8=%E2%9C%93&q="

/-- The youtube bang template of the tests, without a placeholder. -/
def ytTpl : Str := strBytes "https://www.youtube.com/results?search_query="

/-- A concrete cache holding the three test bangs. -/
def cacheTests : Cache := fun k =>
  if k = strBytes "g" then some gTpl
  else if k = strBytes "gh" then some ghTpl
  else if k = strBytes "yt" then some ytTpl else none

/-- A feed entry whose trigger carries an upper-case letter. -/
def entriesUpper : List Bang := [⟨strBytes "G", strBytes "https://example.com/u/"⟩]

/-- A concrete feed for the refresh instances. -/
def entriesPlain : List Bang := [⟨strBytes "g", gTpl⟩]

/-- An initial refresh state with an empty cache. -/
def stEmpty : St := ⟨emptyCache, 0⟩

/-- An environment whose snapshot is absent, whose fetch and parse succeed,
and whose snapshot write fails. -/
def envWriteFail : Env :=
  ⟨false, false, Except.ok false, none, fun _ => Except.ok entriesPlain,
    Except.ok (strBytes "feed"), Except.error ()⟩

/-- An environment whose snapshot age computation fails. -/
def envElapsedFail : Env :=
  ⟨true, true, Except.error (), none, fun _ => Except.error (),
    Except.error (), Except.ok ()⟩

theorem byteAt_succ (b : Nat) (t : Str) (i : Nat) : byteAt (b :: t) (i + 1) = byteAt t i := rfl

theorem getD_eq_getD_drop (q : Str) : ∀ i, q.getD i 0 = (q.drop i).getD 0 0 := by
  induction q with
  | nil => intro i; cases i <;> rfl
  | cons b t ih =>
    intro i
    cases i with
    | zero => rfl
    | succ j => exact ih j

theorem drop_byteAt (q : Str) : ∀ i, i < q.length → q.drop i = byteAt q i :: q.drop (i + 1) := by
  induction q with
  | nil => intro i h; simp at h
  | cons b t ih =>
    intro i h
    cases i with
    | zero => rfl
    | succ j =>
      have hj : j < t.length := by simpa using h
      simpa [byteAt_succ] using ih j hj

theorem length_takeWhile_le' (p : Nat → Bool) : ∀ l : Str, (l.takeWhile p).length ≤ l.length := by
  intro l
  induction l with
  | nil => simp
  | cons b t ih =>
    by_cases hb : p b = true
    · simpa [List.takeWhile_cons_of_pos hb] using Nat.succ_le_succ ih
    · simp [List.takeWhile_cons_of_neg hb]

theorem dropWhile_head_false (p : Nat → Bool) :
    ∀ (l : Str) (d : Nat) (t : Str), l.dropWhile p = d :: t → p d = false := by
  intro l
  induction l with
  | nil => intro d t h; simp at h
  | cons b l2 ih =>
    intro d t h
    rw [List.dropWhile_cons] at h
    split at h
    · exact ih d t h
    · next hpb =>
      cases h
      simpa using hpb

theorem replaceAllAux_nil (pat rep : Str) : ∀ fuel, replaceAllAux pat rep fuel [] = [] := by
  intro fuel; cases fuel <;> rfl

theorem replaceAllAux_fuel (pat rep : Str) :
    ∀ f1 f2 s, s.length ≤ f1 → s.length ≤ f2 →
      replaceAllAux pat rep f1 s = replaceAllAux pat rep f2 s := by
  intro f1
  induction f1 with
  | zero =>
    intro f2 s hs _
    have : s = [] := List.length_eq_zero.mp (Nat.le_zero.mp hs)
    subst this
    rw [replaceAllAux_nil, replaceAllAux_nil]
  | succ f ih =>
    intro f2 s hs1 hs2
    cases s with
    | nil => rw [replaceAllAux_nil, replaceAllAux_nil]
    | cons b rest =>
      cases f2 with
      | zero => simp at hs2
      | succ f2' =>
        show (if 0 < pat.length ∧ isPre pat (b :: rest) then
            rep ++ replaceAllAux pat rep f ((b :: rest).drop pat.length)
          else b :: replaceAllAux pat rep f rest) =
          (if 0 < pat.length ∧ isPre pat (b :: rest) then
            rep ++ replaceAllAux pat rep f2' ((b :: rest).drop pat.length)
          else b :: replaceAllAux pat rep f2' rest)
        by_cases hc : 0 < pat.length ∧ isPre pat (b :: rest)
        · rw [if_pos hc, if_pos hc]
          have hlen : ((b :: rest).drop pat.length).length ≤ rest.length := by
            simp only [List.length_drop, List.length_cons]
            omega
          have h1 : ((b :: rest).drop pat.length).length ≤ f := by
            have : rest.length ≤ f := by simpa using hs1
            omega
          have h2 : ((b :: rest).drop pat.length).length ≤ f2' := by
            have : rest.length ≤ f2' := by simpa using hs2
            omega
          rw [ih _ _ h1 h2]
        · rw [if_neg hc, if_neg hc]
          have h1 : rest.length ≤ f := by simpa using hs1
          have h2 : rest.length ≤ f2' := by simpa using hs2
          rw [ih _ _ h1 h2]

theorem replaceAll_nil (pat rep : Str) : replaceAll pat rep [] = [] := rfl

theorem replaceAll_cons (pat rep : Str) (b : Nat) (rest : Str) :
    replaceAll pat rep (b :: rest) =
      if 0 < pat.length ∧ isPre pat (b :: rest) then
        rep ++ replaceAll pat rep ((b :: rest).drop pat.length)
      else b :: replaceAll pat rep rest := by
  show (if 0 < pat.length ∧ isPre pat (b :: rest) then
      rep ++ replaceAllAux pat rep rest.length ((b :: rest).drop pat.length)
    else b :: replaceAllAux pat rep rest.length rest) = _
  by_cases hc : 0 < pat.length ∧ isPre pat (b :: rest)
  · rw [if_pos hc, if_pos hc]
    unfold replaceAll
    have hlen : ((b :: rest).drop pat.length).length ≤ rest.length := by
      simp only [List.length_drop, List.length_cons]
      omega
    exact congrArg (rep ++ .) (replaceAllAux_fuel pat rep rest.length
      ((b :: rest).drop pat.length).length ((b :: rest).drop pat.length) hlen (Nat.le_refl _))
  · rw [if_neg hc, if_neg hc]
    rfl

theorem replaceAll_of_not_contains (pat rep : Str) :
    ∀ s, containsSub pat s = false → replaceAll pat rep s = s := by
  intro s
  induction s with
  | nil => intro _; rfl
  | cons b rest ih =>
    intro h
    simp only [containsSub, Bool.or_eq_false_iff] at h
    rw [replaceAll_cons, if_neg (fun hc => by simp [h.1] at hc), ih h.2]

theorem hexDigit_ne37 (n : Nat) : hexDigit n ≠ 37 := by
  unfold hexDigit
  split <;> omega

theorem unres_ne37 (b : Nat) (h : isUnreservedB b = true) : b ≠ 37 := by
  intro hb
  subst hb
  exact absurd h (by decide)

theorem hexDigit_pair (b : Nat) (h1 : hexDigit (b / 16) = 50) (h2 : hexDigit (b % 16) = 70) :
    b = 47 := by
  unfold hexDigit at h1 h2
  split at h1 <;> split at h2 <;> omega

theorem encodeByte_47 : encodeByte 47 = [37, 50, 70] := by decide

theorem encodeByte_not_unres (b : Nat) (h : isUnreservedB b = false) :
    encodeByte b = [37, hexDigit (b / 16), hexDigit (b % 16)] := by
  unfold encodeByte
  rw [h]
  simp

theorem isPre_p2F_not_hex (b : Nat) (hb : b ≠ 47) (t : Str) :
    isPre p2F (37 :: hexDigit (b / 16) :: hexDigit (b % 16) :: t) = false := by
  show ((37 == 37) && ((50 == hexDigit (b / 16)) && ((70 == hexDigit (b % 16)) && true))) = false
  rcases eq_or_ne (hexDigit (b / 16)) 50 with h1 | h1
  · rcases eq_or_ne (hexDigit (b % 16)) 70 with h2 | h2
    · exact absurd (hexDigit_pair b h1 h2) hb
    · have h2f : (70 == hexDigit (b % 16)) = false :=
        beq_eq_false_iff_ne.mpr (fun h => h2 h.symm)
      simp [h2f]
  · have h1f : (50 == hexDigit (b / 16)) = false :=
      beq_eq_false_iff_ne.mpr (fun h => h1 h.symm)
    simp [h1f]

theorem isPre_p2F_ne37 (b : Nat) (hb : b ≠ 37) (t : Str) :
    isPre p2F (b :: t) = false := by
  show ((37 == b) && isPre [50, 70] t) = false
  have h1f : (37 == b) = false := beq_eq_false_iff_ne.mpr (fun h => hb h.symm)
  simp [h1f]

theorem replaceAll_p2F_encode : ∀ s : Str, replaceAll p2F [47] (encode s) = encSlash s := by
  intro s
  induction s with
  | nil => rfl
  | cons b rest ih =>
    show replaceAll p2F [47] (encodeByte b ++ encode rest) =
      (if b == 47 then [47] else encodeByte b) ++ encSlash rest
    by_cases hb : b = 47
    · subst hb
      have hcond : 0 < p2F.length ∧ isPre p2F (37 :: 50 :: 70 :: encode rest) = true :=
        ⟨by decide, rfl⟩
      rw [encodeByte_47]
      show replaceAll p2F [47] (37 :: 50 :: 70 :: encode rest) = _
      rw [replaceAll_cons, if_pos hcond]
      have hdrop : (37 :: 50 :: 70 :: encode rest).drop p2F.length = encode rest := rfl
      rw [hdrop, ih]
      rfl
    · by_cases hu : isUnreservedB b = true
      · have hbe : encodeByte b = [b] := by unfold encodeByte; rw [hu]; simp
        rw [hbe]
        show replaceAll p2F [47] (b :: encode rest) = _
        rw [replaceAll_cons, if_neg (fun hc => by
          rw [isPre_p2F_ne37 b (unres_ne37 b hu)] at hc
          exact absurd hc.2 (by simp))]
        rw [ih]
        have hbeq : (b == 47) = false := beq_eq_false_iff_ne.mpr hb
        simp [hbeq, hbe]
      · have hbe := encodeByte_not_unres b (Bool.eq_false_iff.mpr hu)
        rw [hbe]
        show replaceAll p2F [47]
          (37 :: hexDigit (b / 16) :: hexDigit (b % 16) :: encode rest) = _
        rw [replaceAll_cons, if_neg (fun hc => by
          rw [isPre_p2F_not_hex b hb] at hc
          exact absurd hc.2 (by simp))]
        rw [replaceAll_cons, if_neg (fun hc => by
          rw [isPre_p2F_ne37 _ (hexDigit_ne37 (b / 16)) _] at hc
          exact absurd hc.2 (by simp))]
        rw [replaceAll_cons, if_neg (fun hc => by
          rw [isPre_p2F_ne37 _ (hexDigit_ne37 (b % 16)) _] at hc
          exact absurd hc.2 (by simp))]
        rw [ih]
        have hbeq : (b == 47) = false := beq_eq_false_iff_ne.mpr hb
        simp [hbeq, hbe]

theorem not_contains_p2F_encSlash : ∀ s : Str, containsSub p2F (encSlash s) = false := by
  intro s
  induction s with
  | nil => rfl
  | cons b rest ih =>
    show containsSub p2F ((if b == 47 then [47] else encodeByte b) ++ encSlash rest) = false
    by_cases hb : b = 47
    · subst hb
      show containsSub p2F (47 :: encSlash rest) = false
      simp only [containsSub, Bool.or_eq_false_iff]
      exact ⟨isPre_p2F_ne37 47 (by omega) _, ih⟩
    · have hbeq : (b == 47) = false := beq_eq_false_iff_ne.mpr hb
      rw [if_neg (by simp [hbeq])]
      by_cases hu : isUnreservedB b = true
      · have hbe : encodeByte b = [b] := by unfold encodeByte; rw [hu]; simp
        rw [hbe]
        show containsSub p2F (b :: encSlash rest) = false
        simp only [containsSub, Bool.or_eq_false_iff]
        exact ⟨isPre_p2F_ne37 b (unres_ne37 b hu) _, ih⟩
      · have hbe := encodeByte_not_unres b (Bool.eq_false_iff.mpr hu)
        rw [hbe]
        show containsSub p2F
          (37 :: hexDigit (b / 16) :: hexDigit (b % 16) :: encSlash rest) = false
        simp only [containsSub, Bool.or_eq_false_iff]
        refine ⟨isPre_p2F_not_hex b hb _, ?_, ?_, ?_⟩
        · exact isPre_p2F_ne37 _ (hexDigit_ne37 (b / 16)) _
        · exact isPre_p2F_ne37 _ (hexDigit_ne37 (b % 16)) _
        · exact ih

theorem qualifies_iff (q : Str) (i : Nat) :
    qualifies q i = true ↔
      (i + 1 < q.length ∧ byteAt q i = 33 ∧ (i = 0 ∨ byteAt q (i - 1) = 32) ∧
        byteAt q (i + 1) ≠ 32) := by
  simp [qualifies, and_assoc]

theorem scanLoop_eq (q : Str) :
    ∀ (suf : Str) (i prev : Nat), 1 ≤ i → q.drop i = suf → byteAt q (i - 1) = prev →
      scanLoop prev i suf = (findIdxAux q i suf).map (fun s => (s, findEndFrom q (s + 1))) := by
  intro suf
  induction suf with
  | nil => intro i prev _ _ _; rfl
  | cons b rest ih =>
    intro i prev hi hdrop hprev
    have hlen : i < q.length := by
      by_contra hle
      rw [List.drop_eq_nil_iff.mpr (Nat.le_of_not_lt hle)] at hdrop
      exact List.noConfusion hdrop
    have h2 := drop_byteAt q i hlen
    rw [hdrop] at h2
    injection h2 with h3 h4
    have hb : byteAt q i = b := h3.symm
    have hrest : q.drop (i + 1) = rest := h4.symm
    have hprev2 : byteAt q (i + 1 - 1) = b := by
      simpa using hb
    by_cases hguard : b = 33 ∧ prev = 32
    · cases rest with
      | nil =>
        have hlen2 : q.length ≤ i + 1 := List.drop_eq_nil_iff.mp hrest
        have hnlt : ¬(i + 1 < q.length) := by omega
        have hq : qualifies q i = false := by
          simp [qualifies, hnlt]
        have hL : scanLoop prev i [b] = none := by
          simp [scanLoop, hguard]
        have hR : findIdxAux q i [b] = none := by
          simp [findIdxAux, hq]
        rw [hL, hR]
        rfl
      | cons c rest2 =>
        have hlen2 : i + 1 < q.length := by
          by_contra hle
          rw [List.drop_eq_nil_iff.mpr (Nat.le_of_not_lt hle)] at hrest
          exact List.noConfusion hrest
        have h5 := drop_byteAt q (i + 1) hlen2
        rw [hrest] at h5
        injection h5 with h6 _
        have hbc : byteAt q (i + 1) = c := h6.symm
        by_cases hc : c = 32
        · have hq : qualifies q i = false := by
            simp [qualifies, hbc, hc]
          have hL : scanLoop prev i (b :: c :: rest2) = scanLoop b (i + 1) (c :: rest2) := by
            simp [scanLoop, hguard, hc]
          have hR : findIdxAux q i (b :: c :: rest2) = findIdxAux q (i + 1) (c :: rest2) := by
            simp [findIdxAux, hq]
          rw [hL, hR]
          exact ih (i + 1) b (by omega) hrest hprev2
        · have hb33 : byteAt q i = 33 := hb.trans hguard.1
          have hp32 : byteAt q (i - 1) = 32 := hprev.trans hguard.2
          have hq : qualifies q i = true := by
            simp [qualifies, hb33, hp32, hbc, hc, hlen2]
          have hL : scanLoop prev i (b :: c :: rest2) =
              some (i, i + 1 + ((c :: rest2).takeWhile (fun x => x != 32)).length) := by
            simp [scanLoop, hguard, hc]
          have hR : findIdxAux q i (b :: c :: rest2) = some i := by
            simp [findIdxAux, hq]
          rw [hL, hR]
          have hfe : findEndFrom q (i + 1) =
              i + 1 + ((c :: rest2).takeWhile (fun x => x != 32)).length := by
            unfold findEndFrom
            rw [hrest]
          simp [hfe]
    · have hqf : qualifies q i = false := by
        rcases not_and_or.mp hguard with hb33 | hp32
        · simp [qualifies, hb, hb33]
        · have hi0 : ¬(i = 0) := by omega
          simp [qualifies, hprev, hp32, hi0]
      have hL : scanLoop prev i (b :: rest) = scanLoop b (i + 1) rest := by
        simp [scanLoop, hguard]
      have hR : findIdxAux q i (b :: rest) = findIdxAux q (i + 1) rest := by
        simp [findIdxAux, hqf]
      rw [hL, hR]
      exact ih (i + 1) b (by omega) hrest hprev2

theorem get_bang_pos_eq (q : Str) :
    get_bang_pos q = (findIdxAux q 0 q).map (fun s => (s, findEndFrom q (s + 1))) := by
  unfold get_bang_pos
  by_cases hlen : q.length < 2
  · rw [if_pos hlen]
    cases q with
    | nil => rfl
    | cons b0 rest =>
      cases rest with
      | nil =>
        have hq : qualifies (b0 :: ([] : Str)) 0 = false := by
          simp [qualifies]
        simp [findIdxAux, hq]
      | cons b1 rest2 =>
        exfalso
        simp at hlen
        omega
  · rw [if_neg hlen]
    cases q with
    | nil => simp at hlen
    | cons b0 rest =>
      have hrlen : 1 ≤ rest.length := by
        simp at hlen
        omega
      have hb0at : byteAt (b0 :: rest) 0 = b0 := rfl
      have hdrop1 : (b0 :: rest).drop 1 = rest := rfl
      cases rest with
      | nil => simp at hrlen
      | cons r1 rest2 =>
        have hb1at : byteAt (b0 :: r1 :: rest2) 1 = r1 := rfl
        show (if b0 = 33 then
            if 0 < ((r1 :: rest2).takeWhile (fun x => x != 32)).length then
              some (0, 1 + ((r1 :: rest2).takeWhile (fun x => x != 32)).length)
            else scanLoop b0 1 (r1 :: rest2)
          else scanLoop b0 1 (r1 :: rest2)) = _
        by_cases hb0 : b0 = 33
        · rw [if_pos hb0]
          by_cases hr1 : r1 = 32
          · have htw : ((r1 :: rest2).takeWhile (fun x => x != 32)).length = 0 := by
              have : (r1 != 32) = false := by simp [hr1]
              simp [List.takeWhile_cons, this]
            rw [htw]
            simp only [Nat.lt_irrefl, if_false]
            have hq : qualifies (b0 :: r1 :: rest2) 0 = false := by
              simp [qualifies, hr1]
              exact fun _ => rfl
            have := scanLoop_eq (b0 :: r1 :: rest2) (r1 :: rest2) 1 b0 (by omega) rfl rfl
            rw [this]
            simp only [findIdxAux, hq]
            simp
          · have htw : 0 < ((r1 :: rest2).takeWhile (fun x => x != 32)).length := by
              have : (r1 != 32) = true := by simp [hr1]
              simp [List.takeWhile_cons, this]
            rw [if_pos htw]
            have hq : qualifies (b0 :: r1 :: rest2) 0 = true := by
              have hl : 0 + 1 < (b0 :: r1 :: rest2).length := by simp
              simp [qualifies, hb0, hl]
              exact ⟨rfl, fun h => hr1 h⟩
            have hR : findIdxAux (b0 :: r1 :: rest2) 0 (b0 :: r1 :: rest2) = some 0 := by
              simp [findIdxAux, hq]
            rw [hR]
            have hmap : Option.map
                (fun s => (s, findEndFrom (b0 :: r1 :: rest2) (s + 1))) (some 0) =
                some (0, findEndFrom (b0 :: r1 :: rest2) 1) := rfl
            rw [hmap]
            have hfe : findEndFrom (b0 :: r1 :: rest2) 1 =
                1 + ((r1 :: rest2).takeWhile (fun x => x != 32)).length := rfl
            rw [hfe]
        · rw [if_neg hb0]
          have hq : qualifies (b0 :: r1 :: rest2) 0 = false := by
            simp [qualifies, hb0at, hb0]
          have := scanLoop_eq (b0 :: r1 :: rest2) (r1 :: rest2) 1 b0 (by omega) rfl rfl
          rw [this]
          simp only [findIdxAux, hq]
          simp

theorem findIdxAux_qual (q : Str) :
    ∀ (suf : Str) (i s : Nat), findIdxAux q i suf = some s → qualifies q s = true := by
  intro suf
  induction suf with
  | nil => intro i s h; exact Option.noConfusion h
  | cons b rest ih =>
    intro i s h
    simp only [findIdxAux] at h
    by_cases hq : qualifies q i = true
    · rw [if_pos hq] at h
      injection h with h2
      rw [← h2]
      exact hq
    · rw [if_neg hq] at h
      exact ih (i + 1) s h

theorem findEndFrom_qual (q : Str) (s : Nat) (h : qualifies q s = true) :
    findEndFrom q s = findEndFrom q (s + 1) := by
  obtain ⟨hlt, hb33, _, _⟩ := (qualifies_iff q s).mp h
  have hs : s < q.length := by omega
  unfold findEndFrom
  rw [drop_byteAt q s hs, hb33]
  have : ((33 : Nat) != 32) = true := by decide
  simp [List.takeWhile_cons, this]
  omega

theorem encoded_term_eq (st : Str) :
    (if containsSub p2F (encode st) then replaceAll p2F [47] (encode st) else encode st) =
      encSlash st := by
  by_cases h : containsSub p2F (encode st) = true
  · rw [if_pos h]
    exact replaceAll_p2F_encode st
  · rw [if_neg h]
    have hfalse : containsSub p2F (encode st) = false := Bool.eq_false_iff.mpr h
    rw [← replaceAll_of_not_contains p2F [47] (encode st) hfalse]
    exact replaceAll_p2F_encode st

theorem scanLoop_none_of_no_space :
    ∀ (suf : Str) (i prev : Nat), (∀ b ∈ suf, b ≠ 32) → prev ≠ 32 →
      scanLoop prev i suf = none := by
  intro suf
  induction suf with
  | nil => intro i prev _ _; rfl
  | cons b rest ih =>
    intro i prev hmem hprev
    have hguard : ¬(b = 33 ∧ prev = 32) := fun h => hprev h.2
    have hL : scanLoop prev i (b :: rest) = scanLoop b (i + 1) rest := by
      simp [scanLoop, hguard]
    rw [hL]
    exact ih (i + 1) b (fun x hx => hmem x (List.mem_cons_of_mem b hx))
      (hmem b (List.mem_cons_self b rest))

theorem get_bang_pos_eq_none_fast (q : Str) (h0 : byteAt q 0 ≠ 33)
    (hsp : ∀ b ∈ q, b ≠ 32) : get_bang_pos q = none := by
  unfold get_bang_pos
  by_cases hlen : q.length < 2
  · rw [if_pos hlen]
  · rw [if_neg hlen]
    cases q with
    | nil => simp at hlen
    | cons b0 rest =>
      have hb0 : ¬(b0 = 33) := h0
      show (if b0 = 33 then
          if 0 < (rest.takeWhile (fun x => x != 32)).length then
            some (0, 1 + (rest.takeWhile (fun x => x != 32)).length)
          else scanLoop b0 1 rest
        else scanLoop b0 1 rest) = none
      rw [if_neg hb0]
      exact scanLoop_none_of_no_space rest 1 b0
        (fun x hx => hsp x (List.mem_cons_of_mem b0 hx)) (hsp b0 (List.mem_cons_self b0 rest))

theorem get_bang_eq_none_fast (q : Str) (h0 : byteAt q 0 ≠ 33)
    (hsp : ∀ b ∈ q, b ≠ 32) : get_bang q = none := by
  unfold get_bang
  rw [get_bang_pos_eq_none_fast q h0 hsp]
  rfl

theorem resolve_hit (cfg : AppConfig) (cache : Cache) (q bang tpl : Str)
    (hb : get_bang q = some bang) (hc : cache (toAsciiLower (bang.drop 1)) = some tpl) :
    resolve cfg cache q = hitResult tpl bang q := by
  have hnil : get_bang ([] : Str) = none := rfl
  have hq : ¬(q = []) := by
    intro h
    rw [h, hnil] at hb
    exact Option.noConfusion hb
  have hfast : ¬((byteAt q 0 != 33 && q.all (fun b => b != 32)) = true) := by
    intro ht
    rw [Bool.and_eq_true] at ht
    have h1 : byteAt q 0 ≠ 33 := by simpa using ht.1
    have h2 : ∀ b ∈ q, b ≠ 32 := by
      intro b hbq
      simpa using List.all_eq_true.mp ht.2 b hbq
    rw [get_bang_eq_none_fast q h1 h2] at hb
    exact Option.noConfusion hb
  unfold resolve
  rw [if_neg hq, if_neg hfast, hb]
  dsimp only
  rw [hc]
  dsimp only
  rw [encoded_term_eq (trim (replaceFirst bang [] q))]
  unfold hitResult
  simp only [not_contains_p2F_encSlash, Bool.false_eq_true, if_false]

/-- Claim C1: get_bang agrees everywhere with the claimed characterization
(first qualifying maximal bang run, scanning left to right, none when no
index qualifies), and in particular returns none on the five listed
queries. -/
theorem claim1_get_bang_iff_spec :
    (∀ q : Str, get_bang q = specGetBang q) ∧
    get_bang (strBytes "") = none ∧
    get_bang (strBytes "!") = none ∧
    get_bang (strBytes "a!!gh") = none ∧
    get_bang (strBytes "search!gh term") = none ∧
    get_bang (strBytes "search! gh term") = none := by
  refine ⟨?_, by decide, by decide, by decide, by decide, by decide⟩
  intro q
  unfold get_bang specGetBang
  rw [get_bang_pos_eq]
  cases hf : findIdxAux q 0 q with
  | none => rfl
  | some s =>
    have hq := findIdxAux_qual q q 0 s hf
    show some (slice q s (findEndFrom q (s + 1))) = some (slice q s (findEndFrom q s))
    rw [findEndFrom_qual q s hq]

/-- Claim C3: on a cache hit, resolve removes the first occurrence of the
bang token from the query, trims the ends, percent-encodes the term (with
the escaped slashes restored), and then either substitutes every
placeholder occurrence of the template or appends to a template without
placeholder. -/
theorem claim3_hit_substitution :
    ∀ (cfg : AppConfig) (cache : Cache) (q bang tpl : Str),
      get_bang q = some bang →
      cache (toAsciiLower (bang.drop 1)) = some tpl →
      resolve cfg cache q =
        (if containsSub placeholderS tpl then
          replaceAll placeholderS
            (replaceAll p2F [47] (encode (trim (replaceFirst bang [] q)))) tpl
        else tpl ++ replaceAll p2F [47] (encode (trim (replaceFirst bang [] q)))) := by
  intro cfg cache q bang tpl hb hc
  rw [resolve_hit cfg cache q bang tpl hb hc]
  unfold hitResult
  rw [replaceAll_p2F_encode]

/-- Claim C4: whenever no cached bang applies (empty query, no token, or a
token missing from the cache), resolve returns the default search template
with its placeholder replaced by the percent-encoding of the original,
unmodified query. -/
theorem claim4_default_fallback :
    ∀ (cfg : AppConfig) (cache : Cache) (q : Str),
      (∀ bang, get_bang q = some bang → cache (toAsciiLower (bang.drop 1)) = none) →
      resolve cfg cache q =
        replaceAll placeholderBrace (encode q) cfg.default_search := by
  intro cfg cache q h
  unfold resolve
  by_cases hq : q = []
  · rw [if_pos hq]
    subst hq
    rfl
  · rw [if_neg hq]
    by_cases hfast : (byteAt q 0 != 33 && q.all (fun b => b != 32)) = true
    · rw [if_pos hfast]
    · rw [if_neg hfast]
      cases hgb : get_bang q with
      | none => rfl
      | some bang =>
        dsimp only
        rw [h bang hgb]

/-- Claim C5: on a cache hit, the encoding of the search term restores
every escaped slash to a literal slash byte while every other encoded byte
keeps its percent escape: the substituted term maps the slash byte to
itself and every other byte through encodeByte. -/
theorem claim5_slash_restored :
    (∀ st : Str, replaceAll p2F [47] (encode st) =
      st.flatMap (fun b => if b == 47 then [47] else encodeByte b)) ∧
    ∀ (cfg : AppConfig) (cache : Cache) (q bang tpl : Str),
      get_bang q = some bang →
      cache (toAsciiLower (bang.drop 1)) = some tpl →
      resolve cfg cache q =
        (if containsSub placeholderS tpl then
          replaceAll placeholderS
            ((trim (replaceFirst bang [] q)).flatMap
              (fun b => if b == 47 then [47] else encodeByte b)) tpl
        else tpl ++ (trim (replaceFirst bang [] q)).flatMap
          (fun b => if b == 47 then [47] else encodeByte b)) := by
  refine ⟨replaceAll_p2F_encode, ?_⟩
  intro cfg cache q bang tpl hb hc
  rw [resolve_hit cfg cache q bang tpl hb hc]
  rfl

/-- Claim C2, amended: update_cache stores triggers verbatim, so a hit
needs the stored trigger to equal the lowercased token without its leading
bang mark; whenever the lowercased stripped token of the query is a key of
the refreshed cache, resolve uses that key's template — so queries whose
tokens differ only by ASCII case resolve alike. -/
theorem claim2_amended_lookup_normalizes_query_side :
    ∀ (cfg : AppConfig) (entries : List Bang) (q bang tpl : Str),
      get_bang q = some bang →
      update_cache entries cfg (toAsciiLower (bang.drop 1)) = some tpl →
      resolve cfg (update_cache entries cfg) q = hitResult tpl bang q :=
  fun cfg entries q bang tpl hb hc =>
    resolve_hit cfg (update_cache entries cfg) q bang tpl hb hc

/-- Claim C2, counterexample: a feed definition whose trigger is the single
upper-case letter G is stored under that verbatim trigger, not under its
lowercase form, and queries carrying the bang token in either case fall
back to the default search instead of using the definition's template. -/
theorem claim2_counterexample :
    update_cache entriesUpper cfgPlain (strBytes "g") = none ∧
    update_cache entriesUpper cfgPlain (strBytes "G") = some (strBytes "https://example.com/u/") ∧
    resolve cfgPlain (update_cache entriesUpper cfgPlain) (strBytes "!g x") =
      replaceAll placeholderBrace (encode (strBytes "!g x")) cfgPlain.default_search ∧
    resolve cfgPlain (update_cache entriesUpper cfgPlain) (strBytes "!G x") =
      replaceAll placeholderBrace (encode (strBytes "!G x")) cfgPlain.default_search ∧
    resolve cfgPlain (update_cache entriesUpper cfgPlain) (strBytes "!g x") ≠
      hitResult (strBytes "https://example.com/u/") (strBytes "!g") (strBytes "!g x") := by
  refine ⟨by decide, by decide, by decide, by decide, by decide⟩

/-- Claim C10: the single-word fast path agrees with the general fallback:
on a non-empty query that does not start with the bang mark and holds no
space byte, get_bang finds nothing and resolve returns the default search
with the placeholder replaced by the encoded query. -/
theorem claim10_fast_path_equiv :
    ∀ (cfg : AppConfig) (cache : Cache) (q : Str),
      q ≠ [] → byteAt q 0 ≠ 33 → (∀ b ∈ q, b ≠ 32) →
      get_bang q = none ∧
      resolve cfg cache q =
        replaceAll placeholderBrace (encode q) cfg.default_search := by
  intro cfg cache q hq h0 hsp
  refine ⟨get_bang_eq_none_fast q h0 hsp, ?_⟩
  unfold resolve
  rw [if_neg hq]
  have hfast : (byteAt q 0 != 33 && q.all (fun b => b != 32)) = true := by
    rw [Bool.and_eq_true]
    constructor
    · simpa using h0
    · rw [List.all_eq_true]
      intro b hbq
      simpa using hsp b hbq
  rw [if_pos hfast]

theorem find?_append_some {α : Type} (p : α → Bool) (l1 l2 : List α) (x : α)
    (h : l1.find? p = some x) : (l1 ++ l2).find? p = some x := by
  rw [List.find?_append, h]
  rfl

theorem find?_append_none {α : Type} (p : α → Bool) (l1 l2 : List α)
    (h : l1.find? p = none) : (l1 ++ l2).find? p = l2.find? p := by
  rw [List.find?_append, h]
  rfl

theorem foldl_cacheInsert_lookup (l : List Bang) :
    ∀ (m : Cache) (k : Str),
      (l.foldl (fun m b => cacheInsert m b.trigger b.url_template) m) k =
        match l.reverse.find? (fun b => b.trigger == k) with
        | some b => some b.url_template
        | none => m k := by
  induction l with
  | nil => intro m k; rfl
  | cons b l ih =>
    intro m k
    rw [List.foldl_cons, ih]
    rw [List.reverse_cons]
    cases hf : l.reverse.find? (fun b => b.trigger == k) with
    | some x => rw [find?_append_some _ _ _ _ hf]
    | none =>
      rw [find?_append_none _ _ _ hf]
      by_cases hbk : b.trigger = k
      · have hbeq : (b.trigger == k) = true := beq_iff_eq.mpr hbk
        have hfind : [b].find? (fun b => b.trigger == k) = some b := by
          simp [List.find?_cons, hbeq]
        rw [hfind]
        show cacheInsert m b.trigger b.url_template k = some b.url_template
        unfold cacheInsert
        rw [if_pos hbk.symm]
      · have hbeq : (b.trigger == k) = false := beq_eq_false_iff_ne.mpr hbk
        have hfind : [b].find? (fun b => b.trigger == k) = none := by
          simp [List.find?_cons, hbeq]
        rw [hfind]
        show cacheInsert m b.trigger b.url_template k = m k
        unfold cacheInsert
        rw [if_neg (fun h => hbk h.symm)]

/-- Claim C6: each refresh clears the mapping and then inserts the feed and
the configured overrides in order, so the lookup of any trigger equals the
url_template of the last matching entry of the feed followed by the
overrides - none when the trigger is absent, later feed duplicates win over
earlier ones, and overrides win over the feed. -/
theorem claim6_refresh_last_write_wins :
    ∀ (entries : List Bang) (cfg : AppConfig) (k : Str),
      update_cache entries cfg k =
        ((entries ++ cfg.bangs.getD []).reverse.find?
          (fun b => b.trigger == k)).map Bang.url_template := by
  intro entries cfg k
  unfold update_cache
  cases hcb : cfg.bangs with
  | none =>
    dsimp only
    rw [foldl_cacheInsert_lookup]
    show _ = ((entries ++ []).reverse.find? (fun b : Bang => b.trigger == k)).map Bang.url_template
    rw [List.append_nil]
    cases hf : entries.reverse.find? (fun b => b.trigger == k) <;> rfl
  | some bs =>
    dsimp only
    rw [foldl_cacheInsert_lookup, foldl_cacheInsert_lookup]
    show _ = ((entries ++ bs).reverse.find? (fun b : Bang => b.trigger == k)).map Bang.url_template
    rw [List.reverse_append]
    cases hf : bs.reverse.find? (fun b => b.trigger == k) with
    | some x =>
      rw [find?_append_some _ _ _ _ hf]
      rfl
    | none =>
      rw [find?_append_none _ _ _ hf]
      cases hf2 : entries.reverse.find? (fun b => b.trigger == k) <;> rfl

theorem fetchPath_error_preserves (cfg : AppConfig) (env : Env) (now : Nat) (st : St)
    (h : (fetchPath cfg env now st).1 = Except.error ()) :
    (fetchPath cfg env now st).2 = st := by
  rcases hf : env.fetch with e | r
  · simp only [fetchPath, hf]
  · rcases hp : env.parse r with e | es
    · simp only [fetchPath, hf, hp]
    · rcases hw : env.writeRes with e | u
      · simp only [fetchPath, hf, hp, hw]
      · exfalso
        simp only [fetchPath, hf, hp, hw] at h
        exact Except.noConfusion h

/-- Claim C9: update_bangs is atomic with respect to the cache state on
failure: whenever it returns an error, the cache mapping and the
last-update instant are exactly what they were before the call, because
update_cache runs only after every fallible step of the taken path
succeeded. -/
theorem claim9_update_bangs_atomic_on_error :
    ∀ (cfg : AppConfig) (env : Env) (now : Nat) (st : St),
      (update_bangs cfg env now st).1 = Except.error () →
      (update_bangs cfg env now st).2 = st := by
  intro cfg env now st h
  rcases hm : env.metadataOk
  · simp only [update_bangs, hm, Bool.false_eq_true, if_false] at h ⊢
    exact fetchPath_error_preserves cfg env now st h
  · rcases hmo : env.modifiedOk
    · simp only [update_bangs, hm, hmo, Bool.false_eq_true, if_false,
        eq_self_iff_true, if_true] at h ⊢
      exact fetchPath_error_preserves cfg env now st h
    · rcases he : env.elapsedFresh with e | fresh
      · simp only [update_bangs, hm, hmo, he, eq_self_iff_true, if_true]
      · rcases fresh
        · simp only [update_bangs, hm, hmo, he, eq_self_iff_true, if_true,
            Bool.false_eq_true, if_false] at h ⊢
          exact fetchPath_error_preserves cfg env now st h
        · rcases hr : env.readRes with _ | contents
          · simp only [update_bangs, hm, hmo, he, hr, eq_self_iff_true, if_true] at h ⊢
            exact fetchPath_error_preserves cfg env now st h
          · rcases hp : env.parse contents with e | es
            · simp only [update_bangs, hm, hmo, he, hr, hp, eq_self_iff_true, if_true]
            · exfalso
              simp only [update_bangs, hm, hmo, he, hr, hp, eq_self_iff_true, if_true] at h
              exact Except.noConfusion h

/-- Claim C7, counterexample: with the snapshot absent, the fetch
succeeding and parsing to a non-empty feed, and the snapshot write
failing, update_bangs returns the error and leaves the cache empty,
although the refreshed cache would have carried the fetched trigger. -/
theorem claim7_counterexample :
    update_bangs cfgPlain envWriteFail 3 stEmpty = (Except.error (), stEmpty) ∧
    (update_bangs cfgPlain envWriteFail 3 stEmpty).2.cache (strBytes "g") = none ∧
    update_cache entriesPlain cfgPlain (strBytes "g") = some gTpl := by
  refine ⟨rfl, rfl, by decide⟩

/-- Claim C7, amended: on the network path (here: snapshot metadata
unavailable) with a successful fetch and parse, a snapshot write failure
fails the whole refresh: update_bangs returns the error and the cache is
not refreshed. -/
theorem claim7_amended_write_error_propagates :
    ∀ (cfg : AppConfig) (env : Env) (now : Nat) (st : St) (r : Str) (es : List Bang),
      env.metadataOk = false →
      env.fetch = Except.ok r →
      env.parse r = Except.ok es →
      env.writeRes = Except.error () →
      update_bangs cfg env now st = (Except.error (), st) := by
  intro cfg env now st r es hm hf hp hw
  unfold update_bangs fetchPath
  simp only [hm, hf, hp, hw, Bool.false_eq_true, if_false]

theorem utf8_nil : Utf8 [] :=
  ⟨[], rfl, fun g hg => absurd hg (List.not_mem_nil g)⟩

theorem utf8_group_append (g t : Str) (hg : ValidGroup g) (ht : Utf8 t) :
    Utf8 (g ++ t) := by
  obtain ⟨gs, rfl, hv⟩ := ht
  refine ⟨g :: gs, by simp, fun x hx => ?_⟩
  rcases List.mem_cons.mp hx with rfl | hx2
  · exact hg
  · exact hv x hx2

theorem utf8_split_groups :
    ∀ (gs : List Str) (a b : Str), (∀ g ∈ gs, ValidGroup g) → gs.flatten = a ++ b →
      (b = [] ∨ ∃ h t, b = h :: t ∧ ¬ContByte h) → Utf8 a ∧ Utf8 b := by
  intro gs
  induction gs with
  | nil =>
    intro a b _ hflat _
    rw [List.flatten_nil] at hflat
    have h2 := hflat.symm
    rw [List.append_eq_nil] at h2
    obtain ⟨rfl, rfl⟩ := h2
    exact ⟨utf8_nil, utf8_nil⟩
  | cons g gs ih =>
    intro a b hval hflat hb
    rw [List.flatten_cons] at hflat
    rcases hb with rfl | ⟨hh, ht, rfl, hcont⟩
    · rw [List.append_nil] at hflat
      exact ⟨⟨g :: gs, by rw [List.flatten_cons]; exact hflat.symm, hval⟩, utf8_nil⟩
    · rcases List.append_eq_append_iff.mp hflat with ⟨w, hgw, hrest⟩ | ⟨w, haw, hbw⟩
      · have hsub := ih w (hh :: ht) (fun x hx => hval x (List.mem_cons_of_mem g hx)) hrest
          (Or.inr ⟨hh, ht, rfl, hcont⟩)
        refine ⟨?_, hsub.2⟩
        rw [hgw]
        exact utf8_group_append g w (hval g (List.mem_cons_self g gs)) hsub.1
      · cases w with
        | nil =>
          rw [List.append_nil] at haw
          rw [List.nil_append] at hbw
          constructor
          · refine ⟨[a], by simp, fun x hx => ?_⟩
            rcases List.mem_cons.mp hx with rfl | hx2
            · rw [← haw]
              exact hval g (List.mem_cons_self g gs)
            · exact absurd hx2 (List.not_mem_nil x)
          · exact ⟨gs, hbw, fun x hx => hval x (List.mem_cons_of_mem g hx)⟩
        | cons c w2 =>
          cases a with
          | nil =>
            refine ⟨utf8_nil, ⟨g :: gs, ?_, hval⟩⟩
            rw [List.nil_append] at hflat
            rw [List.flatten_cons]
            exact hflat.symm
          | cons x a2 =>
            exfalso
            obtain ⟨h0, t0, hg0, hnc, hcontall, hascii⟩ := hval g (List.mem_cons_self g gs)
            rw [hg0, List.cons_append] at haw
            injection haw with he1 he2
            have hcmem : c ∈ t0 := by
              rw [he2]
              exact List.mem_append_right a2 (List.mem_cons_self c w2)
            have hcc : ContByte c := hcontall c hcmem
            rw [List.cons_append] at hbw
            injection hbw with hb1 _
            exact hcont (hb1.symm ▸ hcc)

theorem utf8_split_at (q : Str) (n : Nat) (hu : Utf8 q)
    (hb : q.drop n = [] ∨ (n < q.length ∧ ¬ContByte (byteAt q n))) :
    Utf8 (q.take n) ∧ Utf8 (q.drop n) := by
  obtain ⟨gs, hq, hval⟩ := hu
  apply utf8_split_groups gs (q.take n) (q.drop n) hval
  · rw [List.take_append_drop]
    exact hq.symm
  · rcases hb with h | ⟨hn, hc⟩
    · exact Or.inl h
    · exact Or.inr ⟨byteAt q n, q.drop (n + 1), drop_byteAt q n hn, hc⟩

theorem utf8_cons_ascii (c : Nat) (t : Str) (h : Utf8 (c :: t)) (hc : c < 128) :
    Utf8 t := by
  obtain ⟨gs, hflat, hval⟩ := h
  cases gs with
  | nil => exact absurd hflat (by simp)
  | cons g gs2 =>
    obtain ⟨h0, t0, hg0, hnc, hcont, hascii⟩ := hval g (List.mem_cons_self g gs2)
    rw [List.flatten_cons, hg0, List.cons_append] at hflat
    injection hflat with he1 he2
    have ht0 : t0 = [] := hascii (he1 ▸ hc)
    rw [ht0, List.nil_append] at he2
    exact ⟨gs2, he2, fun x hx => hval x (List.mem_cons_of_mem g hx)⟩

theorem utf8_of_ascii (q : Str) (h : ∀ b ∈ q, b < 128) : Utf8 q := by
  induction q with
  | nil => exact utf8_nil
  | cons b t ih =>
    have hb : b < 128 := h b (List.mem_cons_self b t)
    have hg : ValidGroup [b] :=
      ⟨b, [], rfl, fun hcb => by have := hcb.1; omega,
        fun x hx => absurd hx (List.not_mem_nil x), fun _ => rfl⟩
    exact utf8_group_append [b] t hg (ih (fun x hx => h x (List.mem_cons_of_mem b hx)))

theorem length_takeWhile_le_gen {α : Type} (p : α → Bool) :
    ∀ l : List α, (l.takeWhile p).length ≤ l.length := by
  intro l
  induction l with
  | nil => simp
  | cons b t ih =>
    by_cases hb : p b = true
    · rw [List.takeWhile_cons_of_pos hb]
      simpa using ih
    · rw [List.takeWhile_cons_of_neg (by simp [hb])]
      simp

theorem drop_takeWhile_length {α : Type} (p : α → Bool) :
    ∀ l : List α, l.drop (l.takeWhile p).length = l.dropWhile p := by
  intro l
  induction l with
  | nil => rfl
  | cons b t ih =>
    by_cases hb : p b = true
    · rw [List.takeWhile_cons_of_pos hb, List.dropWhile_cons_of_pos hb]
      simpa using ih
    · rw [List.takeWhile_cons_of_neg (by simp [hb]), List.dropWhile_cons_of_neg (by simp [hb])]
      rfl

theorem findEndFrom_le (q : Str) (i : Nat) (h : i ≤ q.length) :
    findEndFrom q i ≤ q.length := by
  unfold findEndFrom
  have h1 := length_takeWhile_le_gen (fun x => x != 32) (q.drop i)
  rw [List.length_drop] at h1
  omega

theorem findEndFrom_ge (q : Str) (i : Nat) : i ≤ findEndFrom q i :=
  Nat.le_add_right i _

theorem drop_findEndFrom (q : Str) (i : Nat) :
    q.drop (findEndFrom q i) = (q.drop i).dropWhile (fun x => x != 32) := by
  unfold findEndFrom
  rw [← List.drop_drop]
  exact drop_takeWhile_length _ _

theorem findEnd_end_spec (q : Str) (i : Nat) (hi : i ≤ q.length) :
    findEndFrom q i = q.length ∨
      (findEndFrom q i < q.length ∧ byteAt q (findEndFrom q i) = 32) := by
  cases hdw : (q.drop i).dropWhile (fun x => x != 32) with
  | nil =>
    left
    have h1 : q.drop (findEndFrom q i) = [] := by rw [drop_findEndFrom, hdw]
    have h2 := List.drop_eq_nil_iff.mp h1
    have h3 := findEndFrom_le q i hi
    omega
  | cons d t2 =>
    right
    have h1 : q.drop (findEndFrom q i) = d :: t2 := by rw [drop_findEndFrom, hdw]
    have hlt : findEndFrom q i < q.length := by
      by_contra hle
      rw [List.drop_eq_nil_iff.mpr (Nat.le_of_not_lt hle)] at h1
      exact List.noConfusion h1
    have h2 := drop_byteAt q (findEndFrom q i) hlt
    rw [h1] at h2
    injection h2 with h3 _
    have hpd : (fun x : Nat => x != 32) d = false :=
      dropWhile_head_false _ (q.drop i) d t2 hdw
    have hd32 : d = 32 := by simpa using hpd
    rw [← h3, hd32]
    exact ⟨hlt, rfl⟩

theorem slice_append_drop (q : Str) (s e : Nat) (hse : s ≤ e) (he : e ≤ q.length) :
    slice q s e ++ q.drop e = q.drop s := by
  unfold slice
  conv_rhs => rw [← List.take_append_drop e q]
  rw [List.drop_append_eq_append_drop]
  have hlen : (q.take e).length = e := by
    rw [List.length_take]
    omega
  rw [hlen]
  have hz : s - e = 0 := by omega
  rw [hz, List.drop_zero]

theorem slice_cons (q : Str) (s e : Nat) (hs : s < e) (he : e ≤ q.length) :
    slice q s e = byteAt q s :: slice q (s + 1) e := by
  unfold slice
  have hlen : s < (q.take e).length := by
    rw [List.length_take]
    omega
  rw [drop_byteAt (q.take e) s hlen]
  congr 1
  unfold byteAt
  rw [List.getD_eq_getElem?_getD, List.getD_eq_getElem?_getD, List.getElem?_take_of_lt hs]

theorem get_bang_pos_some (q : Str) (s e : Nat) (h : get_bang_pos q = some (s, e)) :
    qualifies q s = true ∧ e = findEndFrom q (s + 1) := by
  rw [get_bang_pos_eq] at h
  cases hf : findIdxAux q 0 q with
  | none =>
    rw [hf] at h
    exact Option.noConfusion h
  | some s2 =>
    rw [hf] at h
    have h2 : (s2, findEndFrom q (s2 + 1)) = (s, e) := Option.some.inj h
    rw [Prod.mk.injEq] at h2
    obtain ⟨rfl, rfl⟩ := h2
    exact ⟨findIdxAux_qual q q 0 s2 hf, rfl⟩

/-- Claim C8: the slice bounds returned by get_bang fall on the bang-mark
byte and on a space byte or the end of the query, and therefore, on a
well-formed UTF-8 query, the prefix before the token, the token itself, the
suffix after it, and the token without its leading bang mark are all
well-formed byte strings: no slice splits a multi-byte code point. -/
theorem claim8_slices_on_boundaries :
    ∀ (q : Str) (s e : Nat), get_bang_pos q = some (s, e) →
      (byteAt q s = 33 ∧ (s = 0 ∨ byteAt q (s - 1) = 32) ∧ s < e ∧ e ≤ q.length ∧
        (e = q.length ∨ byteAt q e = 32)) ∧
      (Utf8 q → Utf8 (q.take s) ∧ Utf8 (slice q s e) ∧ Utf8 (q.drop e) ∧
        Utf8 ((slice q s e).drop 1)) := by
  intro q s e hpos
  obtain ⟨hq, he⟩ := get_bang_pos_some q s e hpos
  subst he
  obtain ⟨hs1, hb33, hsprev, _⟩ := (qualifies_iff q s).mp hq
  have hs : s < q.length := by omega
  have hslen : s + 1 ≤ q.length := by omega
  have hee : findEndFrom q (s + 1) ≤ q.length := findEndFrom_le q (s + 1) hslen
  have hge := findEndFrom_ge q (s + 1)
  have hse : s < findEndFrom q (s + 1) := by omega
  have hespec := findEnd_end_spec q (s + 1) hslen
  refine ⟨⟨hb33, hsprev, hse, hee, ?_⟩, ?_⟩
  · rcases hespec with h | ⟨_, h⟩
    · exact Or.inl h
    · exact Or.inr h
  · intro hu
    have hncont33 : ¬ContByte (byteAt q s) := by
      rw [hb33]
      rintro ⟨h1, _⟩
      omega
    have hsplit1 := utf8_split_at q s hu (Or.inr ⟨hs, hncont33⟩)
    obtain ⟨gs2, hq2, hval2⟩ := hsplit1.2
    have hdecomp : slice q s (findEndFrom q (s + 1)) ++ q.drop (findEndFrom q (s + 1)) =
        q.drop s := slice_append_drop q s (findEndFrom q (s + 1)) (Nat.le_of_lt hse) hee
    have hbcond : q.drop (findEndFrom q (s + 1)) = [] ∨
        ∃ hh t, q.drop (findEndFrom q (s + 1)) = hh :: t ∧ ¬ContByte hh := by
      rcases hespec with hE | ⟨hlt, hb32⟩
      · exact Or.inl (List.drop_eq_nil_iff.mpr (Nat.le_of_eq hE.symm))
      · refine Or.inr ⟨32, q.drop (findEndFrom q (s + 1) + 1), ?_, ?_⟩
        · rw [drop_byteAt q (findEndFrom q (s + 1)) hlt, hb32]
        · rintro ⟨h1, _⟩
          omega
    have hsplit2 := utf8_split_groups gs2 (slice q s (findEndFrom q (s + 1)))
      (q.drop (findEndFrom q (s + 1))) hval2 (by rw [hdecomp]; exact hq2.symm) hbcond
    have hslice_cons : slice q s (findEndFrom q (s + 1)) =
        33 :: slice q (s + 1) (findEndFrom q (s + 1)) := by
      rw [slice_cons q s (findEndFrom q (s + 1)) hse hee, hb33]
    refine ⟨hsplit1.1, hsplit2.1, hsplit2.2, ?_⟩
    have h33 : Utf8 (33 :: slice q (s + 1) (findEndFrom q (s + 1))) :=
      hslice_cons ▸ hsplit2.1
    have htail := utf8_cons_ascii 33 (slice q (s + 1) (findEndFrom q (s + 1))) h33 (by omega)
    rw [hslice_cons]
    simpa using htail

/-- Witness for the amended claim C2 at a concrete input: a feed trigger
stored as the lowercase g is found by the query bang !G through the
query-side normalization. -/
theorem claim2_amended_witness :
    resolve cfgPlain (update_cache entriesPlain cfgPlain) (strBytes "!G rust") =
      hitResult gTpl (strBytes "!G") (strBytes "!G rust") :=
  claim2_amended_lookup_normalizes_query_side cfgPlain entriesPlain (strBytes "!G rust")
    (strBytes "!G") gTpl (by decide) (by decide)

/-- Witness for claim C3 at a concrete input: the mid-query bang leaves the
double space that survives trimming and shows up double-encoded. -/
theorem claim3_witness :
    resolve cfgPlain cacheTests (strBytes "rust !yt programming") =
      strBytes "https://www.youtube.com/results?search_query=rust%20%20programming" :=
  (claim3_hit_substitution cfgPlain cacheTests (strBytes "rust !yt programming")
    (strBytes "!yt") ytTpl (by decide) (by decide)).trans (by decide)

/-- Witness for claim C4 at a concrete input: an unknown bang falls back to
the default search over the original query. -/
theorem claim4_witness :
    resolve cfgPlain emptyCache (strBytes "!zz hello") =
      replaceAll placeholderBrace (encode (strBytes "!zz hello")) cfgPlain.default_search :=
  claim4_default_fallback cfgPlain emptyCache (strBytes "!zz hello") (fun _ _ => rfl)

/-- Witness for claim C5 at a concrete input: the slash of the search term
comes out literal while the ampersand stays percent-encoded. -/
theorem claim5_witness :
    resolve cfgPlain cacheTests (strBytes "!g a/b&c") =
      strBytes "https://www.google.com/search?q=a/b%26c" :=
  (claim5_slash_restored.2 cfgPlain cacheTests (strBytes "!g a/b&c") (strBytes "!g") gTpl
    (by decide) (by decide)).trans (by decide)

/-- Witness for the amended claim C7 at a concrete environment: the failed
snapshot write aborts the refresh and keeps the state. -/
theorem claim7_amended_witness :
    update_bangs cfgPlain envWriteFail 3 stEmpty = (Except.error (), stEmpty) :=
  claim7_amended_write_error_propagates cfgPlain envWriteFail 3 stEmpty (strBytes "feed")
    entriesPlain rfl rfl rfl rfl

/-- Witness for claim C8 at a concrete query: the token of a space-framed
bang starts on the bang mark, ends on a space, and all four slices are
well-formed. -/
theorem claim8_witness :
    (byteAt (strBytes "a !g b") 2 = 33 ∧
      (2 = 0 ∨ byteAt (strBytes "a !g b") (2 - 1) = 32) ∧ 2 < 4 ∧
      4 ≤ (strBytes "a !g b").length ∧
      (4 = (strBytes "a !g b").length ∨ byteAt (strBytes "a !g b") 4 = 32)) ∧
    (Utf8 ((strBytes "a !g b").take 2) ∧ Utf8 (slice (strBytes "a !g b") 2 4) ∧
      Utf8 ((strBytes "a !g b").drop 4) ∧ Utf8 ((slice (strBytes "a !g b") 2 4).drop 1)) :=
  ⟨(claim8_slices_on_boundaries (strBytes "a !g b") 2 4 (by decide)).1,
    (claim8_slices_on_boundaries (strBytes "a !g b") 2 4 (by decide)).2
      (utf8_of_ascii (strBytes "a !g b") (by decide))⟩

/-- Witness for claim C9 at a concrete environment: a failed snapshot age
computation leaves the state untouched. -/
theorem claim9_witness :
    (update_bangs cfgPlain envElapsedFail 5 stEmpty).2 = stEmpty :=
  claim9_update_bangs_atomic_on_error cfgPlain envElapsedFail 5 stEmpty rfl

/-- Witness for claim C10 at a concrete query: a single word without bang
or space takes the fast path and equals the general fallback. -/
theorem claim10_witness :
    get_bang (strBytes "hello") = none ∧
    resolve cfgPlain cacheTests (strBytes "hello") =
      replaceAll placeholderBrace (encode (strBytes "hello")) cfgPlain.default_search :=
  claim10_fast_path_equiv cfgPlain cacheTests (strBytes "hello") (by decide) (by decide)
    (by decide)

end Redirector
